import Mathlib

set_option maxHeartbeats 1000000

/-!
Shallow embedding of the autocompletion core of the iep editor:
the line parser `parseLine_autocomplete` from `baseTextCtrl.py`, the
`AutoCompletion` extension from `codeeditor/extensions/autocompletion.py`,
and the shell-side completion handler `autoComplete_process` from
`baseTextCtrl.py`.  Fallible operations (Python indexing) are threaded
through `Option`; machine strings are lists of characters.
-/

/-- The characters valid in an identifier name (`namechars` in
`baseTextCtrl.py`). -/
def namechars : List Char :=
  "abcdefghijklmnopqrstuvwxyzABCDEFGHIJKLMNOPQRSTUVWXYZ_0123456789".data

/-- Index of the last occurrence of `c` in `cs` (Python `str.rfind`),
`none` when absent. -/
def pyRfind (cs : List Char) (c : Char) : Option Nat :=
  (cs.enum.filterMap (fun p => if p.2 = c then some p.1 else none)).getLast?

/-- Normalize a Python slice bound: a negative bound counts from the end
and is clamped at 0, a bound past the end is clamped at the length. -/
def pyBound (n : Nat) (a : Int) : Nat :=
  if a < 0 then (a + n).toNat else min a.toNat n

/-- Python slice `cs[a:]`. -/
def pySliceFrom (cs : List Char) (a : Int) : List Char :=
  cs.drop (pyBound cs.length a)

/-- Python slice `cs[a:b]` with a non-negative upper bound. -/
def pySliceRange (cs : List Char) (a : Int) (b : Nat) : List Char :=
  (cs.take (pyBound cs.length b)).drop (pyBound cs.length a)

/-- Outcome of the backward scan loop of `parseLine_autocomplete`:
an early `return`, a `break` at index `i` with the recorded dot position,
or a fully unrolled loop (Python `for`/`else`) with the dot position. -/
inductive ScanResult where
  | ret : List Char → List Char → ScanResult
  | brk : Nat → Nat → ScanResult
  | done : Nat → ScanResult
deriving DecidableEq, Repr

/-- Result of one loop iteration: leave the loop or continue with an
updated dot position `iBase`. -/
inductive StepOut where
  | out : ScanResult → StepOut
  | cont : Nat → StepOut
deriving DecidableEq, Repr

/-- The branch taken by one scan iteration once the character at index
`i` was read (`iBase` is the recorded dot position, 0 meaning: no dot
recorded yet, as in the source). -/
def stepChar (cs : List Char) (i iBase : Nat) (c : Char) : StepOut :=
  if c = '.' then
    .cont (if iBase = 0 then i else iBase)
  else if c = '\'' ∨ c = '"' then
    if iBase = i + 1 then .out (.ret ['\'', '\''] (cs.drop (iBase + 1)))
    else .out (.ret [] [])
  else if c = ']' then
    if iBase = i + 1 ∧ 0 < i ∧ cs.get? (i - 1) = some '[' then
      .out (.ret ['[', ']'] (cs.drop (iBase + 1)))
    else .out (.ret [] [])
  else if c ∈ namechars then .cont iBase
  else .out (.brk i iBase)

/-- One iteration of the backward scan at index `i`.  `none` models a
Python index error. -/
def autocompStep (cs : List Char) (i iBase : Nat) : Option StepOut :=
  (cs.get? i).map (stepChar cs i iBase)

/-- The backward scan loop of `parseLine_autocomplete`, from index `i`
down to 0. -/
def autocompScan (cs : List Char) : Nat → Nat → Option ScanResult
  | 0, iBase =>
    match autocompStep cs 0 iBase with
    | none => none
    | some (.out r) => some r
    | some (.cont iBase') => some (.done iBase')
  | i + 1, iBase =>
    match autocompStep cs (i + 1) iBase with
    | none => none
    | some (.out r) => some r
    | some (.cont iBase') => autocompScan cs i iBase'

/-- The code after the loop of `parseLine_autocomplete`: split the text
at the recorded dot position (`i` is the Python loop variable after the
loop, which may be negative). -/
def assembleResult (cs : List Char) (i : Int) (iBase : Nat) : String × String :=
  if iBase = 0 then (⟨[]⟩, ⟨pySliceFrom cs (i + 1)⟩)
  else (⟨pySliceRange cs (i + 1) iBase⟩, ⟨pySliceFrom cs ((iBase : Int) + 1)⟩)

/-- The comment test of `parseLine_autocomplete`: the rightmost `#` is
preceded by evenly many double and single quotes. -/
def commentedLine (cs : List Char) : Bool :=
  match pyRfind cs '#' with
  | some i =>
    decide ((cs.take i).count '"' % 2 = 0) && decide ((cs.take i).count '\'' % 2 = 0)
  | none => false

/-- The non-comment path of `parseLine_autocomplete`: run the backward
scan from the last index (the loop body never runs on empty text) and
assemble the result. -/
def parseNonComment (cs : List Char) : Option (String × String) :=
  if cs.length = 0 then some (assembleResult cs (-2) 0)
  else
    match autocompScan cs (cs.length - 1) 0 with
    | none => none
    | some (.ret b p) => some (⟨b⟩, ⟨p⟩)
    | some (.brk i iBase) => some (assembleResult cs (i : Int) iBase)
    | some (.done iBase) => some (assembleResult cs (-1) iBase)

/-- `parseLine_autocomplete` from `baseTextCtrl.py`: given the line up to
the cursor, extract `(base, name)`.  `none` models an uncaught Python
exception. -/
def parseLine_autocomplete (text : String) : Option (String × String) :=
  if commentedLine text.data then some ("", "")
  else parseNonComment text.data

/-! ### The `AutoCompletion` extension
(`codeeditor/extensions/autocompletion.py`) -/

/-- The state owned by the `AutoCompletion` extension: the candidate
names handed to the completer model, the list of recently accepted
completions, and the anchor position (`__autocompleteStart`) of the open
session (`none` when no session is active). -/
structure ACState where
  completerNames : List String
  recentCompletions : List String
  autocompleteStart : Option Nat
deriving DecidableEq, Repr

/-- Side effects the extension performs on its collaborators (popup and
completer model). -/
inductive ACEvent where
  | popupShown
  | popupHidden
  | selectionSet (row : Nat) (value : String)
  | modelSet (names : List String)
deriving DecidableEq, Repr

/-- Python `str.startswith` over the character lists. -/
def pyStartsWith (s p : String) : Bool :=
  p.data.isPrefixOf s.data

/-- Python `str.lower` over the character lists. -/
def pyLower (s : String) : String :=
  ⟨s.data.map Char.toLower⟩

/-- Python `str.upper` over the character lists. -/
def pyUpper (s : String) : String :=
  ⟨s.data.map Char.toUpper⟩

/-- Python `str.split` with a single-character separator: maximal
separator-free groups, keeping empty groups. -/
def pySplit (sep : Char) : List Char → List (List Char)
  | [] => [[]]
  | c :: rest =>
    if c = sep then [] :: pySplit sep rest
    else
      match pySplit sep rest with
      | [] => [[c]]
      | g :: gs => (c :: g) :: gs

/-- Lexicographic comparison of character lists by code point: Python's
string `<=`. -/
def lexLe : List Char → List Char → Bool
  | [], _ => true
  | _ :: _, [] => false
  | a :: as, b :: bs =>
    if a.toNat < b.toNat then true
    else if b.toNat < a.toNat then false
    else lexLe as bs

/-- Modelled from the spec: the completer matches candidates against the
typed text case-insensitively ("starts with", ignoring case); this
filtering lives in the external completer component, not in the
repository. -/
def ciStartsWith (s pfx : String) : Bool :=
  pyStartsWith (pyLower s) (pyLower pfx)

/-- The rows of the filtered completion model: the candidate names that
case-insensitively match the typed text, paired with their row number. -/
def filteredCompletions (names : List String) (pfx : String) : List (Nat × String) :=
  (names.filter (fun n => ciStartsWith n pfx)).enum

/-- `completionIndex` from `__updateAutocompleterPrefix`: the position of
a value in the recent-completions list, `-1` when absent (Python
`list.index` inside `try`/`except ValueError`). -/
def completionIndex (recent : List String) (data : String) : Int :=
  match recent.indexOf? data with
  | some i => (i : Int)
  | none => -1

/-- First sort of `__updateAutocompleterPrefix`: stable sort on the
position in the recent-completions list, descending
(`completions.sort(key=..., reverse=True)`).  Python's `list.sort` is
stable, and with `reverse=True` ties also keep their original order; a
stable sort is modelled by insertion sort, whose output is the unique
stably-sorted order. -/
def sortByRecency (recent : List String) (cs : List (Nat × String)) : List (Nat × String) :=
  List.insertionSort
    (fun a b => completionIndex recent b.2 ≤ completionIndex recent a.2) cs

/-- Second sort of `__updateAutocompleterPrefix`: stable sort preferring
candidates whose original casing starts with the typed text
(`completions.sort(key=..., reverse=True)`, stable as above). -/
def sortByCase (pfx : String) (cs : List (Nat × String)) : List (Nat × String) :=
  List.insertionSort
    (fun a b => pyStartsWith b.2 pfx ≤ pyStartsWith a.2 pfx) cs

/-- The two-pass ranking of `__updateAutocompleterPrefix`: the second
sort has priority over the first. -/
def rankCompletions (recent : List String) (pfx : String)
    (cs : List (Nat × String)) : List (Nat × String) :=
  sortByCase pfx (sortByRecency recent cs)

/-- `autocompleteCancel`: hide the popup and drop the anchor. -/
def autocompleteCancel (st : ACState) : ACState × List ACEvent :=
  ({ st with autocompleteStart := none }, [ACEvent.popupHidden])

/-- The text the user typed so far: the selection between the session
anchor and the current cursor. -/
def currentPfx (buffer : String) (a cur : Nat) : String :=
  ⟨(buffer.data.take (max a cur)).drop (min a cur)⟩

/-- `__updateAutocompleterPrefix`: recompute the typed text between the
anchor and the cursor, and either pre-select the best-ranked candidate or
cancel the session when nothing matches.  `none` models an uncaught
Python exception. -/
def updateAutocompleterPfx (st : ACState) (buffer : String) (cur : Nat) :
    Option (ACState × List ACEvent) :=
  match st.autocompleteStart with
  | none => some (st, [ACEvent.popupHidden])
  | some a =>
    if (filteredCompletions st.completerNames (currentPfx buffer a cur)).isEmpty then
      some (autocompleteCancel st)
    else
      match (rankCompletions st.recentCompletions (currentPfx buffer a cur)
              (filteredCompletions st.completerNames (currentPfx buffer a cur))).head? with
      | none => none
      | some b => some (st, [ACEvent.selectionSet b.1 b.2])

/-- The first half of `autocompleteShow`: open a fresh session
(store the new anchor, update the pre-selection with the still-current
names, show the popup) unless a session at that very anchor is already
active. -/
def showFresh (st : ACState) (buffer : String) (cur offset : Nat) :
    Option (ACState × List ACEvent) :=
  if st.autocompleteStart = some (cur - offset) then some (st, [])
  else
    match updateAutocompleterPfx { st with autocompleteStart := some (cur - offset) } buffer cur with
    | none => none
    | some (stB, evsB) => some (stB, evsB ++ [ACEvent.popupShown])

/-- The second half of `autocompleteShow`: replace the candidate names
when a new list was supplied and it differs from the current one. -/
def showNames (st1 : ACState) (names : Option (List String)) :
    ACState × List ACEvent :=
  match names with
  | some ns =>
    if ns = st1.completerNames then (st1, [])
    else ({ st1 with completerNames := ns }, [ACEvent.modelSet ns])
  | none => (st1, [])

/-- `autocompleteShow`: compute the anchor as the cursor moved left by
`offset`; open a fresh session unless a session at that very anchor is
already active; replace the candidate names when they changed; finally
update the pre-selection again. -/
def autocompleteShow (st : ACState) (buffer : String) (cur offset : Nat)
    (names : Option (List String)) : Option (ACState × List ACEvent) :=
  match showFresh st buffer cur offset with
  | none => none
  | some (st1, evs1) =>
    match updateAutocompleterPfx (showNames st1 names).1 buffer cur with
    | none => none
    | some (st3, evs3) => some (st3, evs1 ++ (showNames st1 names).2 ++ evs3)

/-- The recent-completions update in `onAutoComplete`: remove the first
occurrence of the accepted text if present, then append it. -/
def acceptRecent (recent : List String) (text : String) : List String :=
  (if recent.contains text then recent.erase text else recent) ++ [text]

/-- `onAutoComplete`: replace the text between the anchor and the cursor
with the accepted completion, cancel the session, and update the
recent-completions list.  `none` models the attribute error Python would
raise were no session anchor set. -/
def onAutoComplete (st : ACState) (buffer : String) (cur : Nat) (text : String) :
    Option (ACState × String × List ACEvent) :=
  match st.autocompleteStart with
  | none => none
  | some a =>
    let newBuffer : String :=
      ⟨(buffer.data.take (min a cur)) ++ text.data ++ (buffer.data.drop (max a cur))⟩
    let (st1, evs) := autocompleteCancel st
    some ({ st1 with recentCompletions := acceptRecent st.recentCompletions text },
          newBuffer, evs)

/-! ### The shell-side completion handler
(`BaseTextCtrl.autoComplete_process` in `baseTextCtrl.py`) -/

/-- The candidate list built by `autoComplete_process`: the comma-split
response, extended with the shell's builtins when the editor is a shell
and there is no base object. -/
def processItems (baseObject : String) (shellBuiltins : Option (List String))
    (response : String) : List String :=
  match shellBuiltins with
  | some bs =>
    if baseObject = "" then (pySplit ',' response.data).map (fun g => (⟨g⟩ : String)) ++ bs
    else (pySplit ',' response.data).map (fun g => (⟨g⟩ : String))
  | none => (pySplit ',' response.data).map (fun g => (⟨g⟩ : String))

/-- The comparison behind `response.sort(key=str.upper)`. -/
def upperLe (a b : String) : Bool :=
  lexLe (pyUpper a).data (pyUpper b).data

/-- The response list after `response.sort(key=str.upper)` (stable, so
modelled by insertion sort as above). -/
def sortedItems (baseObject : String) (shellBuiltins : Option (List String))
    (response : String) : List String :=
  List.insertionSort (fun a b => upperLe a b = true)
    (processItems baseObject shellBuiltins response)

/-- `autoComplete_process`: an empty stored name (`_autoComp_name`)
cancels the popup at once; the stored name is split on `.` into the base
object and the partial name, and the outer `none` models the
`ValueError` the two-name unpacking raises when the split does not have
exactly two parts (a dotted base object); the candidates are sorted by
their uppercased form and scanned for the first one whose lowercased
form starts with the partial name — `thename` stays the empty string
when nothing matches, and the falsy test `if not thename` cancels the
popup (`some none`) both then and when the first match is itself the
empty string; otherwise the selection and the shown list are returned. -/
def autoComplete_process (autoCompName : String)
    (shellBuiltins : Option (List String)) (response : String) :
    Option (Option (String × List String)) :=
  if autoCompName = "" then some none
  else
    match pySplit '.' autoCompName.data with
    | [bo, nm] =>
      match (sortedItems ⟨bo⟩ shellBuiltins response).find?
          (fun item => pyStartsWith (pyLower item) ⟨nm⟩) with
      | none => some none
      | some thename =>
        if thename = "" then some none
        else some (some (thename, sortedItems ⟨bo⟩ shellBuiltins response))
    | _ => none

/-! ### The position tracker -/

/-- Modelled from the spec: the anchor adjustment of the host text
widget's cursor (`__autocompleteStart` is a cursor with
`setKeepPositionOnInsert(True)`, whose adjustment on edits happens inside
the external widget library, not in the repository): an insertion of `n`
characters strictly before the anchor shifts it forward by `n`. -/
def trackInsert (anchor p n : Nat) : Nat :=
  if p < anchor then anchor + n else anchor

/-- Modelled from the spec: deletion of the range `[p, p + n)`: a
deletion ending at or before the anchor shifts it backward by `n`, one
entirely at or after the anchor leaves it, and one spanning the anchor
invalidates the session (`none`). -/
def trackDelete (anchor p n : Nat) : Option Nat :=
  if p + n ≤ anchor then some (anchor - n)
  else if anchor ≤ p then some anchor
  else none

/-! ### Theorems -/

/-- C4: the parser splits an ordinary identifier context at the rightmost
dot: `parse "eat = banan"` is `("", "banan")` and
`parse "eat = food.fruit.ban"` is `("food.fruit", "ban")`. -/
theorem c4_dotted_split :
    parseLine_autocomplete "eat = banan" = some ("", "banan") ∧
    parseLine_autocomplete "eat = food.fruit.ban" = some ("food.fruit", "ban") := by
  constructor <;> decide

/-- C2 (counterexample): on `"x = [1,2].ap"` the parser returns
`("", "")`, not the claimed `("[]", "ap")`: the bracket marker requires
`[` directly before `]`. -/
theorem c2_counterexample :
    parseLine_autocomplete "x = [1,2].ap" = some ("", "") ∧
    parseLine_autocomplete "x = [1,2].ap" ≠ some ("[]", "ap") := by
  constructor <;> decide

/-- C2 (amended): the parser returns the string marker on
`"x = 'abc'.up"`; the list marker is returned only when `]` is directly
preceded by `[`, as in `"x = [].ap"`, while `"x = [1,2].ap"` degrades to
`("", "")`. -/
theorem c2_amended :
    parseLine_autocomplete "x = 'abc'.up" = some ("''", "up") ∧
    parseLine_autocomplete "x = [].ap" = some ("[]", "ap") ∧
    parseLine_autocomplete "x = [1,2].ap" = some ("", "") := by
  refine ⟨by decide, by decide, by decide⟩

/-- C3 (counterexample): the input `"#\"#x.y"` contains a `#` (at index
0) with evenly many quotes of either kind before it, yet the parser does
not treat the line as a comment: it returns `("x", "y")`.  Only the
rightmost `#` is examined by the code. -/
theorem c3_counterexample :
    "#\"#x.y".data.get? 0 = some '#' ∧
    ("#\"#x.y".data.take 0).count '"' % 2 = 0 ∧
    ("#\"#x.y".data.take 0).count '\'' % 2 = 0 ∧
    parseLine_autocomplete "#\"#x.y" = some ("x", "y") ∧
    parseLine_autocomplete "#\"#x.y" ≠ some ("", "") := by
  refine ⟨by decide, by decide, by decide, by decide, by decide⟩

/-- C3 (amended): when the rightmost `#` of the line has evenly many
double and single quotes before it, the entire line is treated as a
comment and the parser returns `("", "")`; in particular
`parse "# food.ban"` is `("", "")`. -/
theorem c3_rightmost_comment :
    (∀ (text : String) (i : Nat), pyRfind text.data '#' = some i →
      (text.data.take i).count '"' % 2 = 0 →
      (text.data.take i).count '\'' % 2 = 0 →
      parseLine_autocomplete text = some ("", "")) ∧
    parseLine_autocomplete "# food.ban" = some ("", "") := by
  constructor
  · intro text i hfind h1 h2
    have hcom : commentedLine text.data = true := by
      unfold commentedLine
      rw [hfind]
      simp [h1, h2]
    unfold parseLine_autocomplete
    rw [if_pos hcom]
  · decide

theorem c3_rightmost_comment_witness :
    parseLine_autocomplete "# food.ban" = some ("", "") :=
  c3_rightmost_comment.1 "# food.ban" 0 (by decide) (by decide) (by decide)

/-- C9: for an open session, inserting `n` characters strictly before the
anchor shifts it forward by `n`, and deleting those same `n` characters
shifts it back, restoring the original anchor. -/
theorem c9_anchor_roundtrip (st : ACState) (anchor p n : Nat)
    (hopen : st.autocompleteStart = some anchor) (hp : p < anchor) :
    trackInsert anchor p n = anchor + n ∧
    trackDelete (trackInsert anchor p n) p n = some anchor := by
  unfold trackInsert trackDelete
  rw [if_pos hp]
  refine ⟨rfl, ?_⟩
  rw [if_pos (by omega)]
  simp

theorem c9_witness :
    trackInsert 7 2 3 = 7 + 3 ∧ trackDelete (trackInsert 7 2 3) 2 3 = some 7 :=
  c9_anchor_roundtrip ⟨[], [], some 7⟩ 7 2 3 rfl (by decide)

example : parseLine_autocomplete "eat = banan" = some ("", "banan") := by decide
example : parseLine_autocomplete "eat = food.fruit.ban" = some ("food.fruit", "ban") := by decide
example : parseLine_autocomplete "x = 'abc'.up" = some ("''", "up") := by decide
example : parseLine_autocomplete "x = [1,2].ap" = some ("", "") := by decide
example : parseLine_autocomplete "x = [].ap" = some ("[]", "ap") := by decide
example : parseLine_autocomplete "# food.ban" = some ("", "") := by decide
example : parseLine_autocomplete "#\"#x.y" = some ("x", "y") := by decide
example : parseLine_autocomplete "" = some ("", "") := by decide
example : parseLine_autocomplete "abc." = some ("abc", "") := by decide

/-- Helper: `__updateAutocompleterPrefix` never touches the recent
completions nor the candidate names. -/
theorem updatePfx_preserves (st : ACState) (buffer : String) (cur : Nat)
    (out : ACState × List ACEvent)
    (h : updateAutocompleterPfx st buffer cur = some out) :
    out.1.recentCompletions = st.recentCompletions ∧
    out.1.completerNames = st.completerNames := by
  unfold updateAutocompleterPfx at h
  split at h
  · simp only [Option.some.injEq] at h
    subst h; exact ⟨rfl, rfl⟩
  · split at h
    · simp only [autocompleteCancel, Option.some.injEq] at h
      subst h; exact ⟨rfl, rfl⟩
    · split at h
      · exact absurd h (by simp)
      · simp only [Option.some.injEq] at h
        subst h; exact ⟨rfl, rfl⟩

/-- Helper: the fresh-open half of `autocompleteShow` never touches the
recent completions nor the candidate names. -/
theorem showFresh_preserves (st : ACState) (buffer : String)
    (cur offset : Nat) (out : ACState × List ACEvent)
    (h : showFresh st buffer cur offset = some out) :
    out.1.recentCompletions = st.recentCompletions ∧
    out.1.completerNames = st.completerNames := by
  unfold showFresh at h
  split at h
  · simp only [Option.some.injEq] at h
    subst h; exact ⟨rfl, rfl⟩
  · split at h
    · exact absurd h (by simp)
    case h_2 stB evsB hB =>
      simp only [Option.some.injEq] at h
      subst h
      have hp := updatePfx_preserves _ buffer cur _ hB
      exact ⟨hp.1, hp.2⟩

/-- Helper: the names-replacement half of `autocompleteShow` never
touches the recent completions nor the anchor. -/
theorem showNames_preserves (st1 : ACState) (names : Option (List String)) :
    (showNames st1 names).1.recentCompletions = st1.recentCompletions ∧
    (showNames st1 names).1.autocompleteStart = st1.autocompleteStart := by
  cases names with
  | none => exact ⟨rfl, rfl⟩
  | some ns =>
    simp only [showNames]
    split <;> exact ⟨rfl, rfl⟩

/-- Helper: `autocompleteShow` never touches the recent completions. -/
theorem autocompleteShow_recent (st : ACState) (buffer : String)
    (cur offset : Nat) (names : Option (List String)) (out : ACState × List ACEvent)
    (h : autocompleteShow st buffer cur offset names = some out) :
    out.1.recentCompletions = st.recentCompletions := by
  unfold autocompleteShow at h
  split at h
  · exact absurd h (by simp)
  case h_2 st1 evs1 hstep1 =>
    have h1 : st1.recentCompletions = st.recentCompletions :=
      (showFresh_preserves st buffer cur offset _ hstep1).1
    split at h
    · exact absurd h (by simp)
    case h_2 st3 evs3 h3 =>
      simp only [Option.some.injEq] at h
      subst h
      have h2 : st3.recentCompletions = (showNames st1 names).1.recentCompletions :=
        (updatePfx_preserves _ buffer cur _ h3).1
      rw [h2, (showNames_preserves st1 names).1, h1]

/-- C7: accepting a completion keeps the recent-completions list
duplicate-free, puts the accepted value last (moving it to the end rather
than duplicating it, leaving all other multiplicities unchanged), and
none of the other operations (cancel, prefix update, show) mutates the
list; accepting rewrites it exactly to `acceptRecent`. -/
theorem c7_recency_invariant (recent : List String) (t : String)
    (hnd : recent.Nodup) :
    ((acceptRecent recent t).Nodup ∧
     (acceptRecent recent t).getLast? = some t ∧
     (acceptRecent recent t).count t = 1 ∧
     ∀ c, c ≠ t → (acceptRecent recent t).count c = recent.count c) ∧
    (∀ (st : ACState) (buffer : String) (cur offset : Nat)
        (names : Option (List String)) (out : ACState × List ACEvent),
      (autocompleteCancel st).1.recentCompletions = st.recentCompletions ∧
      (updateAutocompleterPfx st buffer cur = some out →
        out.1.recentCompletions = st.recentCompletions) ∧
      (autocompleteShow st buffer cur offset names = some out →
        out.1.recentCompletions = st.recentCompletions)) ∧
    (∀ (st : ACState) (buffer : String) (cur : Nat)
        (out : ACState × String × List ACEvent),
      st.recentCompletions = recent →
      onAutoComplete st buffer cur t = some out →
      out.1.recentCompletions = acceptRecent recent t) := by
  have hbase : ∀ l' : List String, l'.Nodup → t ∉ l' →
      (l' ++ [t]).Nodup ∧ (l' ++ [t]).getLast? = some t ∧
      (l' ++ [t]).count t = 1 ∧
      ∀ c, c ≠ t → (l' ++ [t]).count c = l'.count c := by
    intro l' hnd' hmem'
    refine ⟨?_, ?_, ?_, ?_⟩
    · exact List.Nodup.append hnd' (List.nodup_singleton t)
        (by simp [List.disjoint_singleton, hmem'])
    · exact List.getLast?_concat _
    · rw [List.count_append, List.count_eq_zero.mpr hmem']
      simp
    · intro c hc
      rw [List.count_append]
      simp [List.count_singleton', hc]
  constructor
  · unfold acceptRecent
    by_cases hm : t ∈ recent
    · rw [if_pos (by simpa using hm)]
      have h1 := hbase (recent.erase t) (hnd.erase t) (hnd.not_mem_erase)
      refine ⟨h1.1, h1.2.1, h1.2.2.1, ?_⟩
      intro c hc
      rw [h1.2.2.2 c hc, List.count_erase_of_ne hc]
    · rw [if_neg (by simpa using hm)]
      exact hbase recent hnd hm
  constructor
  · intro st buffer cur offset names out
    refine ⟨rfl, ?_, ?_⟩
    · intro h; exact (updatePfx_preserves st buffer cur out h).1
    · intro h; exact autocompleteShow_recent st buffer cur offset names out h
  · intro st buffer cur out hrec h
    unfold onAutoComplete at h
    split at h
    · exact absurd h (by simp)
    · simp only [Option.some.injEq] at h
      subst h
      simp only [← hrec]

theorem c7_witness :
    (acceptRecent ["beta", "alpha"] "alpha").Nodup ∧
    (acceptRecent ["beta", "alpha"] "alpha").getLast? = some "alpha" ∧
    (acceptRecent ["beta", "alpha"] "alpha").count "alpha" = 1 :=
  ⟨(c7_recency_invariant ["beta", "alpha"] "alpha" (by decide)).1.1,
   (c7_recency_invariant ["beta", "alpha"] "alpha" (by decide)).1.2.1,
   (c7_recency_invariant ["beta", "alpha"] "alpha" (by decide)).1.2.2.1⟩

/-- Helper: one scan step succeeds at any in-range index. -/
theorem autocompStep_isSome (cs : List Char) (i iBase : Nat)
    (h : i < cs.length) : (autocompStep cs i iBase).isSome := by
  unfold autocompStep
  rw [List.get?_eq_get h]
  simp

/-- Helper: the backward scan succeeds from any in-range start index. -/
theorem autocompScan_isSome (cs : List Char) :
    ∀ (i iBase : Nat), i < cs.length → (autocompScan cs i iBase).isSome := by
  intro i
  induction i with
  | zero =>
    intro iBase h
    unfold autocompScan
    have hstep := autocompStep_isSome cs 0 iBase h
    cases hs : autocompStep cs 0 iBase with
    | none => rw [hs] at hstep; simp at hstep
    | some s => cases s <;> simp
  | succ i ih =>
    intro iBase h
    unfold autocompScan
    have hstep := autocompStep_isSome cs (i + 1) iBase h
    cases hs : autocompStep cs (i + 1) iBase with
    | none => rw [hs] at hstep; simp at hstep
    | some s =>
      cases s with
      | out r => simp
      | cont ib => exact ih ib (by omega)

/-- Helper: a step that leaves the loop determines the whole scan. -/
theorem autocompScan_of_out (cs : List Char) (i iBase : Nat) (r : ScanResult)
    (h : autocompStep cs i iBase = some (.out r)) :
    autocompScan cs i iBase = some r := by
  cases i with
  | zero => unfold autocompScan; rw [h]
  | succ m => unfold autocompScan; rw [h]

/-- C6: the parser is total (it never hits an index error, modelled by
`none`), the empty input yields `("", "")`, and an input made solely of
characters that can start no completion context (not identifier
characters, not `.`, quotes or `]`) degrades to `("", "")`. -/
theorem c6_parser_total :
    (∀ text : String, (parseLine_autocomplete text).isSome) ∧
    parseLine_autocomplete "" = some ("", "") ∧
    (∀ text : String,
      (∀ c ∈ text.data, c ∉ namechars ∧ c ≠ '.' ∧ c ≠ '\'' ∧ c ≠ '"' ∧ c ≠ ']') →
      parseLine_autocomplete text = some ("", "")) := by
  refine ⟨?_, by decide, ?_⟩
  · intro text
    unfold parseLine_autocomplete
    by_cases hcom : commentedLine text.data
    · rw [if_pos hcom]; simp
    · rw [if_neg hcom]
      unfold parseNonComment
      by_cases hlen : text.data.length = 0
      · rw [if_pos hlen]; simp
      · rw [if_neg hlen]
        have hsc := autocompScan_isSome text.data (text.data.length - 1) 0 (by omega)
        cases hscan : autocompScan text.data (text.data.length - 1) 0 with
        | none => rw [hscan] at hsc; simp at hsc
        | some r => cases r <;> simp
  · intro text hchars
    unfold parseLine_autocomplete
    by_cases hcom : commentedLine text.data
    · rw [if_pos hcom]
    · rw [if_neg hcom]
      unfold parseNonComment
      by_cases hlen : text.data.length = 0
      · rw [if_pos hlen]
        have hnil : text.data = [] := List.length_eq_zero.mp hlen
        rw [hnil]
        rfl
      · rw [if_neg hlen]
        obtain ⟨c, hc⟩ : ∃ c, text.data.get? (text.data.length - 1) = some c :=
          ⟨text.data.get ⟨text.data.length - 1, by omega⟩, List.get?_eq_get (by omega)⟩
        have hcmem : c ∈ text.data := List.get?_mem hc
        obtain ⟨hnc, hdot, hq1, hq2, hbr⟩ := hchars c hcmem
        have hstep : autocompStep text.data (text.data.length - 1) 0 =
            some (.out (.brk (text.data.length - 1) 0)) := by
          unfold autocompStep
          rw [hc]
          simp only [Option.map_some']
          unfold stepChar
          rw [if_neg hdot, if_neg (by rintro (hq | hq) <;> simp_all),
            if_neg hbr, if_neg hnc]
        have hscan := autocompScan_of_out text.data (text.data.length - 1) 0 _ hstep
        simp only [hscan]
        have hslice : pySliceFrom text.data (((text.data.length - 1 : Nat) : Int) + 1) = [] := by
          unfold pySliceFrom pyBound
          rw [if_neg (by omega)]
          have heq : (((text.data.length - 1 : Nat) : Int) + 1).toNat = text.data.length := by
            omega
          rw [heq]
          simp
        simp only [assembleResult, if_pos rfl, hslice]
        rfl

theorem c6_witness : parseLine_autocomplete " !" = some ("", "") :=
  c6_parser_total.2.2 " !" (by decide)

/-- Helper: the two-pass ranking permutes the filtered completions. -/
theorem rankCompletions_perm (recent : List String) (pfx : String)
    (cs : List (Nat × String)) : List.Perm (rankCompletions recent pfx cs) cs :=
  (List.perm_insertionSort _ _).trans (List.perm_insertionSort _ _)

/-- C1: when every filtered candidate case-insensitively matches the
typed text, the pre-selected candidate (the head after the two-pass
stable sort) is one of the candidates; if some candidate's original
casing starts with the exact-case typed text then so does the
pre-selected one, and otherwise the pre-selected candidate has maximal
position in the recency list (more recently accepted wins, absent
candidates ranking lowest). -/
theorem c1_ranker_preselection (recent : List String) (pfx : String)
    (cs : List (Nat × String)) (hne : cs ≠ [])
    (hci : ∀ c ∈ cs, ciStartsWith c.2 pfx = true) :
    ∃ b, (rankCompletions recent pfx cs).head? = some b ∧ b ∈ cs ∧
      ((∃ c ∈ cs, pyStartsWith c.2 pfx = true) → pyStartsWith b.2 pfx = true) ∧
      ((∀ c ∈ cs, pyStartsWith c.2 pfx = false) →
        ∀ c ∈ cs, completionIndex recent c.2 ≤ completionIndex recent b.2) := by
  haveI hT2 : IsTrans (Nat × String)
      (fun x y => pyStartsWith y.2 pfx ≤ pyStartsWith x.2 pfx) :=
    ⟨fun _ _ _ h1 h2 => le_trans h2 h1⟩
  haveI hO2 : IsTotal (Nat × String)
      (fun x y => pyStartsWith y.2 pfx ≤ pyStartsWith x.2 pfx) :=
    ⟨fun _ _ => le_total _ _⟩
  haveI hT1 : IsTrans (Nat × String)
      (fun x y => completionIndex recent y.2 ≤ completionIndex recent x.2) :=
    ⟨fun _ _ _ h1 h2 => le_trans h2 h1⟩
  haveI hO1 : IsTotal (Nat × String)
      (fun x y => completionIndex recent y.2 ≤ completionIndex recent x.2) :=
    ⟨fun _ _ => le_total _ _⟩
  have hperm1 : List.Perm (sortByRecency recent cs) cs := List.perm_insertionSort _ _
  have hperm : List.Perm (rankCompletions recent pfx cs) cs := rankCompletions_perm recent pfx cs
  have hne2 : rankCompletions recent pfx cs ≠ [] := by
    intro h0
    rw [h0] at hperm
    exact hne (List.nil_perm.mp hperm)
  obtain ⟨b, t, hbt⟩ : ∃ b t, rankCompletions recent pfx cs = b :: t := by
    cases hr : rankCompletions recent pfx cs with
    | nil => exact absurd hr hne2
    | cons b t => exact ⟨b, t, rfl⟩
  have hbmem : b ∈ cs := hperm.mem_iff.mp (by rw [hbt]; exact List.mem_cons_self b t)
  refine ⟨b, by rw [hbt]; rfl, hbmem, ?_, ?_⟩
  · rintro ⟨c, hc, hcs⟩
    have hsorted : (rankCompletions recent pfx cs).Pairwise
        (fun x y => pyStartsWith y.2 pfx ≤ pyStartsWith x.2 pfx) :=
      List.sorted_insertionSort _ _
    rw [hbt] at hsorted
    have hcr : c ∈ b :: t := by
      rw [← hbt]
      exact hperm.mem_iff.mpr hc
    rcases List.mem_cons.mp hcr with hceq | hct
    · rw [← hceq]; exact hcs
    · have hle : pyStartsWith c.2 pfx ≤ pyStartsWith b.2 pfx :=
        (List.pairwise_cons.mp hsorted).1 c hct
      rw [hcs] at hle
      cases hb : pyStartsWith b.2 pfx
      · rw [hb] at hle; exact absurd hle (by decide)
      · rfl
  · intro hall c hc
    have hkeys : ∀ x ∈ sortByRecency recent cs, pyStartsWith x.2 pfx = false :=
      fun x hx => hall x (hperm1.mem_iff.mp hx)
    have hpair : (sortByRecency recent cs).Pairwise
        (fun x y => pyStartsWith y.2 pfx ≤ pyStartsWith x.2 pfx) := by
      apply List.pairwise_of_forall_mem_list
      intro x hx y hy
      rw [hkeys x hx, hkeys y hy]
    have heq : rankCompletions recent pfx cs = sortByRecency recent cs := by
      unfold rankCompletions sortByCase
      exact List.Sorted.insertionSort_eq hpair
    have hsorted1 : (sortByRecency recent cs).Pairwise
        (fun x y => completionIndex recent y.2 ≤ completionIndex recent x.2) :=
      List.sorted_insertionSort _ _
    rw [heq] at hbt
    rw [hbt] at hsorted1
    have hcmem2 : c ∈ b :: t := by
      rw [← hbt]
      exact hperm1.mem_iff.mpr hc
    rcases List.mem_cons.mp hcmem2 with hceq | hct
    · rw [hceq]
    · exact (List.pairwise_cons.mp hsorted1).1 c hct

theorem c1_witness :
    ∃ b, (rankCompletions ["beta", "amend"] "a" [(0, "alpha"), (1, "amend")]).head? = some b ∧
      b ∈ [(0, "alpha"), (1, "amend")] ∧
      ((∃ c ∈ [(0, "alpha"), (1, "amend")], pyStartsWith c.2 "a" = true) →
        pyStartsWith b.2 "a" = true) ∧
      ((∀ c ∈ [(0, "alpha"), (1, "amend")], pyStartsWith c.2 "a" = false) →
        ∀ c ∈ [(0, "alpha"), (1, "amend")],
          completionIndex ["beta", "amend"] c.2 ≤ completionIndex ["beta", "amend"] b.2) :=
  c1_ranker_preselection ["beta", "amend"] "a" [(0, "alpha"), (1, "amend")]
    (by decide) (by decide)

/-- Helper: with a session open and an empty filtered set, the prefix
update cancels the session. -/
theorem updatePfx_of_empty (st : ACState) (buffer : String) (cur a : Nat)
    (hopen : st.autocompleteStart = some a)
    (hemp : filteredCompletions st.completerNames (currentPfx buffer a cur) = []) :
    updateAutocompleterPfx st buffer cur =
      some ({ st with autocompleteStart := none }, [ACEvent.popupHidden]) := by
  unfold updateAutocompleterPfx
  simp [hopen, hemp, autocompleteCancel]

/-- Helper: with a session open and a non-empty filtered set, the prefix
update keeps the state and emits the best-ranked candidate. -/
theorem updatePfx_of_nonempty (st : ACState) (buffer : String) (cur a : Nat)
    (hopen : st.autocompleteStart = some a)
    (hne : filteredCompletions st.completerNames (currentPfx buffer a cur) ≠ []) :
    ∃ b, (rankCompletions st.recentCompletions (currentPfx buffer a cur)
        (filteredCompletions st.completerNames (currentPfx buffer a cur))).head? = some b ∧
      b ∈ filteredCompletions st.completerNames (currentPfx buffer a cur) ∧
      updateAutocompleterPfx st buffer cur = some (st, [ACEvent.selectionSet b.1 b.2]) := by
  have hperm := rankCompletions_perm st.recentCompletions (currentPfx buffer a cur)
    (filteredCompletions st.completerNames (currentPfx buffer a cur))
  have hrne : rankCompletions st.recentCompletions (currentPfx buffer a cur)
      (filteredCompletions st.completerNames (currentPfx buffer a cur)) ≠ [] := by
    intro h0
    rw [h0] at hperm
    exact hne (List.nil_perm.mp hperm)
  obtain ⟨b, t, hbt⟩ : ∃ b t, rankCompletions st.recentCompletions (currentPfx buffer a cur)
      (filteredCompletions st.completerNames (currentPfx buffer a cur)) = b :: t := by
    cases hr : rankCompletions st.recentCompletions (currentPfx buffer a cur)
        (filteredCompletions st.completerNames (currentPfx buffer a cur)) with
    | nil => exact absurd hr hrne
    | cons b t => exact ⟨b, t, rfl⟩
  refine ⟨b, by rw [hbt]; rfl, hperm.mem_iff.mp (by rw [hbt]; exact List.mem_cons_self b t), ?_⟩
  unfold updateAutocompleterPfx
  simp only [hopen]
  rw [if_neg (by simp [hne]), hbt]
  rfl

/-- C5: while a session is open, when no candidate case-insensitively
starts with the current typed text the prefix update returns no
pre-selection and cancels the session (anchor dropped, popup hidden);
and any pre-selection ever emitted names a row and value of the filtered
set. -/
theorem c5_empty_filter_closes (st : ACState) (buffer : String) (cur a : Nat)
    (hopen : st.autocompleteStart = some a) :
    (filteredCompletions st.completerNames (currentPfx buffer a cur) = [] →
      updateAutocompleterPfx st buffer cur =
        some ({ st with autocompleteStart := none }, [ACEvent.popupHidden])) ∧
    (∀ out r v, updateAutocompleterPfx st buffer cur = some out →
      ACEvent.selectionSet r v ∈ out.2 →
      (r, v) ∈ filteredCompletions st.completerNames (currentPfx buffer a cur)) := by
  constructor
  · exact updatePfx_of_empty st buffer cur a hopen
  · intro out r v hout hmem
    by_cases hemp : filteredCompletions st.completerNames (currentPfx buffer a cur) = []
    · rw [updatePfx_of_empty st buffer cur a hopen hemp] at hout
      simp only [Option.some.injEq] at hout
      subst hout
      simp at hmem
    · obtain ⟨b, hb, hbmem, hupd⟩ := updatePfx_of_nonempty st buffer cur a hopen hemp
      rw [hupd] at hout
      simp only [Option.some.injEq] at hout
      subst hout
      simp only [List.mem_singleton, ACEvent.selectionSet.injEq] at hmem
      obtain ⟨hr, hv⟩ := hmem
      rw [hr, hv]
      simpa using hbmem

theorem c5_witness :
    updateAutocompleterPfx ⟨["beta"], [], some 10⟩ "0123456789z" 11 =
      some (⟨["beta"], [], none⟩, [ACEvent.popupHidden]) :=
  (c5_empty_filter_closes ⟨["beta"], [], some 10⟩ "0123456789z" 11 10 rfl).1 (by decide)

/-- Helper: after the names-replacement half, the candidate names equal
the supplied list. -/
theorem showNames_completerNames (st1 : ACState) (ns : List String) :
    (showNames st1 (some ns)).1.completerNames = ns := by
  simp only [showNames]
  by_cases hn : ns = st1.completerNames
  · rw [if_pos hn]; exact hn.symm
  · rw [if_neg hn]

/-- Helper: the names-replacement half never shows the popup. -/
theorem showNames_no_popupShown (st1 : ACState) (names : Option (List String)) :
    ACEvent.popupShown ∉ (showNames st1 names).2 := by
  cases names with
  | none => simp [showNames]
  | some ns =>
    simp only [showNames]
    by_cases hn : ns = st1.completerNames
    · rw [if_pos hn]; simp
    · rw [if_neg hn]; simp

/-- Helper: `autocompleteShow` is the composition of its three halves. -/
theorem autocompleteShow_eq (st : ACState) (buffer : String) (cur offset : Nat)
    (names : Option (List String)) (st1 : ACState) (evs1 : List ACEvent)
    (h1 : showFresh st buffer cur offset = some (st1, evs1))
    (st3 : ACState) (evs3 : List ACEvent)
    (h3 : updateAutocompleterPfx (showNames st1 names).1 buffer cur = some (st3, evs3)) :
    autocompleteShow st buffer cur offset names =
      some (st3, evs1 ++ (showNames st1 names).2 ++ evs3) := by
  unfold autocompleteShow
  simp only [h1]
  simp only [h3]

/-- C8 (counterexample): a reopen request whose computed anchor equals
the current anchor can still close the session: with the session open at
anchor 0, the typed text `"z"`, and new names `["alpha"]` that do not
match it, the final prefix update cancels the session, so the open state
is not preserved. -/
theorem c8_counterexample :
    (⟨["zeta"], [], some 0⟩ : ACState).autocompleteStart = some (1 - 1) ∧
    (autocompleteShow ⟨["zeta"], [], some 0⟩ "z" 1 1 (some ["alpha"])).map
      (fun out => out.1.autocompleteStart) = some none := by
  exact ⟨rfl, by decide⟩

/-- C8 (amended): a reopen request with the anchor equal to the current
one keeps the anchor, replaces the candidate list in place and never
shows the popup anew, but the session stays open only when some new
candidate matches the current typed text (otherwise the trailing prefix
update cancels it); a request with a different anchor performs a fresh
open at the new anchor (showing the popup), provided both the old and the
new candidate lists match the typed text at the new anchor. -/
theorem c8_show_behavior :
    (∀ (st : ACState) (buffer : String) (cur offset : Nat) (ns : List String) (a : Nat),
      st.autocompleteStart = some a → cur - offset = a →
      ∃ stOut evs, autocompleteShow st buffer cur offset (some ns) = some (stOut, evs) ∧
        stOut.completerNames = ns ∧
        stOut.recentCompletions = st.recentCompletions ∧
        ACEvent.popupShown ∉ evs ∧
        stOut.autocompleteStart =
          (if filteredCompletions ns (currentPfx buffer a cur) = [] then none
           else some a)) ∧
    (∀ (st : ACState) (buffer : String) (cur offset : Nat) (ns : List String) (a' : Nat),
      st.autocompleteStart ≠ some (cur - offset) → cur - offset = a' →
      filteredCompletions st.completerNames (currentPfx buffer a' cur) ≠ [] →
      filteredCompletions ns (currentPfx buffer a' cur) ≠ [] →
      ∃ stOut evs, autocompleteShow st buffer cur offset (some ns) = some (stOut, evs) ∧
        stOut.completerNames = ns ∧
        stOut.recentCompletions = st.recentCompletions ∧
        ACEvent.popupShown ∈ evs ∧
        stOut.autocompleteStart = some a') := by
  constructor
  · intro st buffer cur offset ns a hopen heq
    have hfresh : showFresh st buffer cur offset = some (st, []) := by
      unfold showFresh
      rw [heq, if_pos hopen]
    have hnames2 : (showNames st (some ns)).1.completerNames = ns :=
      showNames_completerNames st ns
    have hstart2 : (showNames st (some ns)).1.autocompleteStart = some a := by
      rw [(showNames_preserves st (some ns)).2, hopen]
    have hrecent2 : (showNames st (some ns)).1.recentCompletions = st.recentCompletions :=
      (showNames_preserves st (some ns)).1
    by_cases hemp : filteredCompletions ns (currentPfx buffer a cur) = []
    · have hup := updatePfx_of_empty (showNames st (some ns)).1 buffer cur a hstart2
        (by rw [hnames2]; exact hemp)
      refine ⟨_, _, autocompleteShow_eq st buffer cur offset (some ns) st [] hfresh _ _ hup,
        hnames2, hrecent2, ?_, ?_⟩
      · intro hmem
        rcases List.mem_append.mp hmem with hmem1 | hmem2
        · rcases List.mem_append.mp hmem1 with h | h
          · simp at h
          · exact showNames_no_popupShown st (some ns) h
        · simp at hmem2
      · rw [if_pos hemp]
    · obtain ⟨b, hb, hbmem, hup⟩ := updatePfx_of_nonempty (showNames st (some ns)).1
        buffer cur a hstart2 (by rw [hnames2]; exact hemp)
      refine ⟨_, _, autocompleteShow_eq st buffer cur offset (some ns) st [] hfresh _ _ hup,
        hnames2, hrecent2, ?_, ?_⟩
      · intro hmem
        rcases List.mem_append.mp hmem with hmem1 | hmem2
        · rcases List.mem_append.mp hmem1 with h | h
          · simp at h
          · exact showNames_no_popupShown st (some ns) h
        · simp at hmem2
      · rw [if_neg hemp]
        exact hstart2
  · intro st buffer cur offset ns a' hne ha' hold hnew
    have hstartA : ({ st with autocompleteStart := some (cur - offset) } : ACState).autocompleteStart
        = some a' := by
      simp [ha']
    obtain ⟨bA, hbA, hbAmem, hupA⟩ := updatePfx_of_nonempty
      { st with autocompleteStart := some (cur - offset) } buffer cur a' hstartA hold
    have hfresh : showFresh st buffer cur offset =
        some ({ st with autocompleteStart := some (cur - offset) },
          [ACEvent.selectionSet bA.1 bA.2] ++ [ACEvent.popupShown]) := by
      unfold showFresh
      rw [if_neg hne, hupA]
    have hnames2 : (showNames { st with autocompleteStart := some (cur - offset) }
        (some ns)).1.completerNames = ns :=
      showNames_completerNames _ ns
    have hstart2 : (showNames { st with autocompleteStart := some (cur - offset) }
        (some ns)).1.autocompleteStart = some a' := by
      rw [(showNames_preserves _ (some ns)).2]
      exact hstartA
    have hrecent2 : (showNames { st with autocompleteStart := some (cur - offset) }
        (some ns)).1.recentCompletions = st.recentCompletions :=
      (showNames_preserves _ (some ns)).1
    obtain ⟨b2, hb2, hb2mem, hup2⟩ := updatePfx_of_nonempty
      (showNames { st with autocompleteStart := some (cur - offset) } (some ns)).1
      buffer cur a' hstart2 (by rw [hnames2]; exact hnew)
    refine ⟨_, _, autocompleteShow_eq st buffer cur offset (some ns) _ _ hfresh _ _ hup2,
      hnames2, hrecent2, ?_, hstart2⟩
    apply List.mem_append.mpr
    left
    apply List.mem_append.mpr
    left
    simp

theorem c8_witness :
    (∃ stOut evs,
      autocompleteShow ⟨["alpha"], [], some 0⟩ "a" 1 1 (some ["amend"]) = some (stOut, evs) ∧
      stOut.completerNames = ["amend"] ∧
      stOut.recentCompletions = (⟨["alpha"], [], some 0⟩ : ACState).recentCompletions ∧
      ACEvent.popupShown ∉ evs ∧
      stOut.autocompleteStart =
        (if filteredCompletions ["amend"] (currentPfx "a" 0 1) = [] then none
         else some 0)) ∧
    (∃ stOut evs,
      autocompleteShow ⟨["abq"], [], none⟩ "xab" 3 2 (some ["aBc"]) = some (stOut, evs) ∧
      stOut.completerNames = ["aBc"] ∧
      stOut.recentCompletions = (⟨["abq"], [], none⟩ : ACState).recentCompletions ∧
      ACEvent.popupShown ∈ evs ∧
      stOut.autocompleteStart = some 1) :=
  ⟨c8_show_behavior.1 ⟨["alpha"], [], some 0⟩ "a" 1 1 ["amend"] 0 rfl rfl,
   c8_show_behavior.2 ⟨["abq"], [], none⟩ "xab" 3 2 ["aBc"] 1 (by decide) rfl
     (by decide) (by decide)⟩

/-! ### Theorems about the shell-side handler -/

/-- Helper: `lexLe` is reflexive. -/
theorem lexLe_refl : ∀ as : List Char, lexLe as as = true := by
  intro as
  induction as with
  | nil => rfl
  | cons a as ih =>
    simp only [lexLe]
    rw [if_neg (by omega : ¬ a.toNat < a.toNat), if_neg (by omega : ¬ a.toNat < a.toNat)]
    exact ih

/-- Helper: `lexLe` is total. -/
theorem lexLe_total : ∀ as bs : List Char, lexLe as bs = true ∨ lexLe bs as = true := by
  intro as
  induction as with
  | nil => intro bs; left; rfl
  | cons a as ih =>
    intro bs
    cases bs with
    | nil => right; rfl
    | cons b bs =>
      simp only [lexLe]
      by_cases hab : a.toNat < b.toNat
      · left; rw [if_pos hab]
      · by_cases hba : b.toNat < a.toNat
        · right; rw [if_pos hba]
        · rw [if_neg hab, if_neg hba, if_neg hba, if_neg hab]
          exact ih bs

/-- Helper: `lexLe` is transitive. -/
theorem lexLe_trans : ∀ as bs cs : List Char,
    lexLe as bs = true → lexLe bs cs = true → lexLe as cs = true := by
  intro as
  induction as with
  | nil => intro bs cs _ _; rfl
  | cons a as ih =>
    intro bs cs h1 h2
    cases bs with
    | nil => simp [lexLe] at h1
    | cons b bs =>
      cases cs with
      | nil => simp [lexLe] at h2
      | cons c cs =>
        simp only [lexLe] at h1 h2 ⊢
        by_cases hab : a.toNat < b.toNat
        · by_cases hbc : b.toNat < c.toNat
          · rw [if_pos (by omega : a.toNat < c.toNat)]
          · rw [if_neg hbc] at h2
            by_cases hcb : c.toNat < b.toNat
            · rw [if_pos hcb] at h2; cases h2
            · rw [if_pos (by omega : a.toNat < c.toNat)]
        · rw [if_neg hab] at h1
          by_cases hba : b.toNat < a.toNat
          · rw [if_pos hba] at h1; cases h1
          · rw [if_neg hba] at h1
            by_cases hbc : b.toNat < c.toNat
            · rw [if_pos (by omega : a.toNat < c.toNat)]
            · rw [if_neg hbc] at h2
              by_cases hcb : c.toNat < b.toNat
              · rw [if_pos hcb] at h2; cases h2
              · rw [if_neg hcb] at h2
                rw [if_neg (by omega : ¬ a.toNat < c.toNat),
                  if_neg (by omega : ¬ c.toNat < a.toNat)]
                exact ih bs cs h1 h2

/-- Helper: the first element accepted by `find?` in a `Pairwise`-sorted
list is minimal among the accepted elements. -/
theorem find?_min_of_pairwise {α : Type} {p : α → Bool} {r : α → α → Prop}
    {l : List α} {t : α} (hs : l.Pairwise r) (hrefl : ∀ x, p x = true → r x x)
    (hf : l.find? p = some t) : ∀ u ∈ l, p u = true → r t u := by
  induction l with
  | nil => simp at hf
  | cons x xs ih =>
    cases hpx : p x with
    | true =>
      have ht : t = x := by
        rw [List.find?_cons, hpx] at hf
        simpa using hf.symm
      subst ht
      intro u hu hpu
      rcases List.mem_cons.mp hu with h | h
      · subst h
        exact hrefl _ hpu
      · exact (List.pairwise_cons.mp hs).1 u h
    | false =>
      have hf' : xs.find? p = some t := by
        rw [List.find?_cons, hpx] at hf
        exact hf
      intro u hu hpu
      rcases List.mem_cons.mp hu with h | h
      · subst h
        rw [hpu] at hpx
        cases hpx
      · exact ih (List.pairwise_cons.mp hs).2 hf' u h hpu


/-- C10 (counterexample): with the stored name `"food."` (base object
`"food"`, partial name `""`, reachable by typing `food.`) and an empty
response, the split response `[""]` contains a candidate whose lowercased
form starts with the partial name, yet the handler cancels the popup
(`some none`): `thename` stays falsy.  And with the dotted stored name
`"food.fruit.ban"` the two-name unpacking of `split('.')` raises
(`none`) before any sorting or scanning happens. -/
theorem c10_counterexample :
    pyStartsWith (pyLower "") "" = true ∧
    "" ∈ processItems "food" none "" ∧
    autoComplete_process "food." none "" = some none ∧
    autoComplete_process "food.fruit.ban" none "bar" = none := by
  refine ⟨by decide, by decide, by decide, by decide⟩

/-- C10 (amended): an empty stored name cancels the popup; a stored name
whose split on `.` does not have exactly two parts (a dotted base
object) raises a `ValueError` (`none`) before any sorting; otherwise the
handler sorts the candidates by their uppercased form and scans for the
first one whose lowercased form starts with the partial name: when none
matches, or the first match is the empty string (the falsy
`if not thename` test), the popup is cancelled; otherwise that candidate
— nonempty, matching, taken from the candidate list, and minimal in the
uppercase order among all matches — is the pre-selection and the sorted
candidates are shown.  Recency history and exact-case preference are
never consulted: the handler depends only on the stored name, the shell
builtins and the response. -/
theorem c10_shell_falsy_selection :
    (∀ (builtins : Option (List String)) (response : String),
      autoComplete_process "" builtins response = some none) ∧
    (∀ (acn : String) (builtins : Option (List String)) (response : String),
      acn ≠ "" → (pySplit '.' acn.data).length ≠ 2 →
      autoComplete_process acn builtins response = none) ∧
    (∀ (acn : String) (bo nm : List Char) (builtins : Option (List String))
        (response : String),
      acn ≠ "" → pySplit '.' acn.data = [bo, nm] →
      ((∀ it ∈ processItems ⟨bo⟩ builtins response,
          pyStartsWith (pyLower it) ⟨nm⟩ = false) →
        autoComplete_process acn builtins response = some none) ∧
      ((sortedItems ⟨bo⟩ builtins response).find?
          (fun item => pyStartsWith (pyLower item) ⟨nm⟩) = some "" →
        autoComplete_process acn builtins response = some none) ∧
      (∀ t shown,
        autoComplete_process acn builtins response = some (some (t, shown)) →
        t ≠ "" ∧ pyStartsWith (pyLower t) ⟨nm⟩ = true ∧
        t ∈ processItems ⟨bo⟩ builtins response ∧
        List.Perm shown (processItems ⟨bo⟩ builtins response) ∧
        ∀ u ∈ processItems ⟨bo⟩ builtins response,
          pyStartsWith (pyLower u) ⟨nm⟩ = true →
          lexLe (pyUpper t).data (pyUpper u).data = true)) := by
  refine ⟨?_, ?_, ?_⟩
  · intro builtins response
    unfold autoComplete_process
    rw [if_pos rfl]
  · intro acn builtins response hne hlen
    unfold autoComplete_process
    rw [if_neg hne]
    cases hsp : pySplit '.' acn.data with
    | nil => rfl
    | cons bo rest =>
      cases rest with
      | nil => rfl
      | cons nm rest2 =>
        cases rest2 with
        | nil => exact absurd (by rw [hsp]; rfl) hlen
        | cons z rest3 => rfl
  · intro acn bo nm builtins response hne hsp
    have hperm : List.Perm (sortedItems ⟨bo⟩ builtins response)
        (processItems ⟨bo⟩ builtins response) := List.perm_insertionSort _ _
    refine ⟨?_, ?_, ?_⟩
    · intro hall
      unfold autoComplete_process
      rw [if_neg hne]
      simp only [hsp]
      have hfind : (sortedItems ⟨bo⟩ builtins response).find?
          (fun item => pyStartsWith (pyLower item) ⟨nm⟩) = none := by
        rw [List.find?_eq_none]
        intro x hx
        rw [hall x (hperm.mem_iff.mp hx)]
        simp
      rw [hfind]
    · intro hfind
      unfold autoComplete_process
      rw [if_neg hne]
      simp only [hsp]
      simp only [hfind]
      simp
    · intro t shown hout
      unfold autoComplete_process at hout
      rw [if_neg hne] at hout
      simp only [hsp] at hout
      cases hfind : (sortedItems ⟨bo⟩ builtins response).find?
          (fun item => pyStartsWith (pyLower item) ⟨nm⟩) with
      | none => simp only [hfind] at hout; simp at hout
      | some thename =>
        simp only [hfind] at hout
        by_cases hth : thename = ""
        · rw [if_pos hth] at hout
          simp at hout
        · rw [if_neg hth] at hout
          simp only [Option.some.injEq, Prod.mk.injEq] at hout
          obtain ⟨hth2, hsh⟩ := hout
          subst hth2
          have hp := List.find?_some hfind
          refine ⟨hth, hp, hperm.mem_iff.mp (List.mem_of_find?_eq_some hfind),
            by rw [← hsh]; exact hperm, ?_⟩
          have hsorted : (sortedItems ⟨bo⟩ builtins response).Pairwise
              (fun a b => upperLe a b = true) := by
            haveI : IsTotal String (fun a b => upperLe a b = true) :=
              ⟨fun a b => lexLe_total _ _⟩
            haveI : IsTrans String (fun a b => upperLe a b = true) :=
              ⟨fun a b c => lexLe_trans _ _ _⟩
            exact List.sorted_insertionSort _ _
          intro u hu hpu
          exact find?_min_of_pairwise hsorted (fun x _ => lexLe_refl _) hfind u
            (hperm.mem_iff.mpr hu) hpu

theorem c10_witness :
    "apple" ≠ "" ∧
    pyStartsWith (pyLower "apple") "ap" = true ∧
    "apple" ∈ processItems "" none "Banana,apple" ∧
    List.Perm ["apple", "Banana"] (processItems "" none "Banana,apple") ∧
    (∀ u ∈ processItems "" none "Banana,apple",
      pyStartsWith (pyLower u) "ap" = true →
      lexLe (pyUpper "apple").data (pyUpper u).data = true) :=
  (c10_shell_falsy_selection.2.2 ".ap" "".data "ap".data none "Banana,apple"
    (by decide) (by decide)).2.2 "apple" ["apple", "Banana"] (by decide)
